import Mathlib

/-!
Shallow embedding of the bear VM (`src/bear-vm/src/vm.rs`, `cell.rs`,
`device.rs`) and of the address-layout logic of the bear assembler
(`src/bear-ass/src/processor.rs`, `parser/ast.rs`).

Machine integers are modelled as `Nat`:
a `Cell` (Rust `u32`) is a `Nat` below `2 ^ 32`, and Rust `usize`
arithmetic that can wrap is written with explicit `% 2 ^ 64`
(the release-mode wrapping semantics).  Fallible Rust code
(`Result`, out-of-bounds `Vec` indexing, failing `assert!`) is
modelled with `Except VMErr`: indexing a vector out of bounds and a
failing assertion become the distinct error values `panicIndex` and
`panicAssert`, which are Rust panics rather than `vm::Error` values.
-/

/-- Runtime error values of the VM (`vm.rs` lines 14-52), extended with
two constructors for Rust panics, which are not `vm::Error` values:
`panicIndex` models an out-of-bounds `Vec` index and `panicAssert`
models a failing `assert!`. -/
inductive VMErr where
  | dataUnderflow
  | addressUnderflow
  | ipOob (ip : Nat)
  | invalidInstruction (byte : Nat)
  | panicIndex
  | panicAssert
deriving DecidableEq

/-- The constant `cell::SIZE` (`cell.rs` line 15): the byte width of a cell. -/
def cellSize : Nat := 4

/-- The wrapping modulus of Rust `usize` on a 64-bit host. -/
def usizeMod : Nat := 2 ^ 64

/-- Wrapping `usize` addition (release-mode `+=` semantics). -/
def uAdd (a b : Nat) : Nat := (a + b) % usizeMod

/-- Wrapping `usize` subtraction (release-mode `-` semantics). -/
def uSub (a b : Nat) : Nat := (a + (usizeMod - b % usizeMod)) % usizeMod

/-- The runtime state of the VM: the fields of `ExecutionState` together
with the fields of the embedded `BearVM` (`vm.rs` lines 229-262).  The
cached `word: [u8; 4]` of the source holds `to_le_bytes` of the loaded
image word; it is modelled by the word's `u32` value, whose byte `i` is
recovered with `wordByte`.  The devices, logger and debugger are not
modelled (debugger callbacks do not change the state). -/
structure ExecutionState where
  instruction_index : Nat
  loaded_word_index : Nat
  current_word_index : Nat
  word : Nat
  image : List Nat
  data : List Nat
  address : List Nat
deriving DecidableEq

/-- Byte `i` of the little-endian byte decomposition of the 32-bit word
`w`; models `w.to_le_bytes()[i]` for `i < 4`. -/
def wordByte (w i : Nat) : Nat := (w >>> (8 * i)) &&& 0xFF

/-- The byte of the image at byte address `a` (word `a / 4`, byte `a % 4`
of its little-endian decomposition). -/
def byteAt (img : List Nat) (a : Nat) : Nat := wordByte (img.getD (a / 4) 0) (a % 4)

/-- Rust `image[i]`: the element when `i` is in bounds, an index panic
otherwise. -/
def imageGet (img : List Nat) (i : Nat) : Except VMErr Nat :=
  if i < img.length then .ok (img.getD i 0) else .error .panicIndex

/-- Rust `image[i] = v`: the updated vector when `i` is in bounds, an
index panic otherwise. -/
def imageSet (img : List Nat) (i v : Nat) : Except VMErr (List Nat) :=
  if i < img.length then .ok (img.set i v) else .error .panicIndex

/-- The `ip()` accessor (`vm.rs` line 293):
`current_word_index * cell::SIZE + instruction_index`. -/
def ExecutionState.ip (s : ExecutionState) : Nat :=
  s.current_word_index * cellSize + s.instruction_index

/-- The ip attached to a runtime error by `Error::with_ip_from_state`
(`vm.rs` lines 42-45): `loaded_word_index * 4 + instruction_index`. -/
def ipFromStateForError (s : ExecutionState) : Nat :=
  s.loaded_word_index * 4 + s.instruction_index

/-- `ExecutionState::ip_set` (`vm.rs` lines 295-307).  The guard is the
source's `image.len() < loaded_word_index`; when it passes, the word at
the new `loaded_word_index` is read, which panics when that index equals
the image length. -/
def ipSet (s : ExecutionState) (lw cw ii : Nat) : Except VMErr ExecutionState := do
  if s.image.length < lw then
    .error (.ipOob (lw * cellSize + ii))
  else
    let w ← imageGet s.image lw
    .ok { s with loaded_word_index := lw, current_word_index := cw,
                 instruction_index := ii, word := w }

/-- `ExecutionState::ip_get_encoded` (`vm.rs` lines 309-315): under the
three `assert!`s, packs the indices as
`(loaded_word_index << 17) | (current_word_index << 2) | instruction_index`,
cast to `u32`. -/
def ipGetEncoded (s : ExecutionState) : Except VMErr Nat :=
  if s.instruction_index < 4 ∧
     s.loaded_word_index &&& 0x7FFF = s.loaded_word_index ∧
     s.current_word_index &&& 0x7FFF = s.current_word_index then
    .ok (((s.loaded_word_index <<< 17) ||| (s.current_word_index <<< 2) |||
          s.instruction_index) % 2 ^ 32)
  else
    .error .panicAssert

/-- `ExecutionState::ip_set_encoded` (`vm.rs` lines 317-322): unpacks
`ii = ip & 3`, `lw = ip >> 17`, `cw = (ip >> 2) & 0x7FFF` and calls
`ip_set`. -/
def ipSetEncoded (s : ExecutionState) (ip : Nat) : Except VMErr ExecutionState :=
  ipSet s (ip >>> 17) ((ip >>> 2) &&& 0x7FFF) (ip &&& 3)

/-- `ExecutionState::ip_inc` (`vm.rs` lines 324-338).  At the end of a
word the cursor advances to the next word; the out-of-bounds guard is
the source's `image.len() < loaded_word_index`, after which the new word
is read (panicking when the new index equals the image length). -/
def ipInc (s : ExecutionState) : Except VMErr ExecutionState := do
  if s.instruction_index = cellSize - 1 then
    let cw := uAdd s.current_word_index 1
    if s.image.length < cw then
      .error (.ipOob (cw * cellSize + 0))
    else
      let w ← imageGet s.image cw
      .ok { s with current_word_index := cw, loaded_word_index := cw,
                   instruction_index := 0, word := w }
  else
    .ok { s with instruction_index := uAdd s.instruction_index 1 }

/-- `BearVM::data_pop` via `ExecutionState::data_pop`: pops the data
stack, underflow when empty. -/
def dataPop (s : ExecutionState) : Except VMErr (Nat × ExecutionState) :=
  match s.data with
  | [] => .error .dataUnderflow
  | x :: rest => .ok (x, { s with data := rest })

/-- `BearVM::data_peek`: reads the top of the data stack without
popping. -/
def dataPeek (s : ExecutionState) : Except VMErr Nat :=
  match s.data with
  | [] => .error .dataUnderflow
  | x :: _ => .ok x

/-- `BearVM::data_push`. -/
def dataPush (s : ExecutionState) (x : Nat) : ExecutionState :=
  { s with data := x :: s.data }

/-- `BearVM::address_pop`: pops the address stack, underflow when
empty. -/
def addressPop (s : ExecutionState) : Except VMErr (Nat × ExecutionState) :=
  match s.address with
  | [] => .error .addressUnderflow
  | x :: rest => .ok (x, { s with address := rest })

/-- `BearVM::address_push`. -/
def addressPush (s : ExecutionState) (x : Nat) : ExecutionState :=
  { s with address := x :: s.address }

/-- `Cell::from(x: i32)` (`cell.rs` line 20): the `u32` bit pattern of a
signed 32-bit value. -/
def cellFromI32 (x : Int) : Nat := (x % (2 : Int) ^ 32).toNat

/-- The `(word index, instruction index)` pair computed by `inst_jump`
and `inst_call` from a popped byte address (`vm.rs` line 590 and line
604): `if ip != 0 && ip % 4 == 0 { ((ip / 4) - 1, 3) } else { ((ip / 4), (ip % 4) - 1) }`.
In the second branch the `usize` subtraction wraps when `ip % 4 = 0`. -/
def jumpTargetIndices (ip : Nat) : Nat × Nat :=
  if ip ≠ 0 ∧ ip % 4 = 0 then (ip / 4 - 1, 3) else (ip / 4, uSub (ip % 4) 1)

/-- `ExecutionState::inst_jump` (`vm.rs` lines 583-593): pops the target
byte address; with `ifz` also pops a predicate and does nothing more
unless it is zero; then sets both word indices to the translated word
index and the instruction index to the translated byte index. -/
def instJump (ifz : Bool) (s0 : ExecutionState) : Except VMErr ExecutionState := do
  let (ip, s1) ← dataPop s0
  if ifz then
    let (p, s2) ← dataPop s1
    if p ≠ 0 then
      pure s2
    else
      let wi := jumpTargetIndices ip
      ipSet s2 wi.1 wi.1 wi.2
  else
    let wi := jumpTargetIndices ip
    ipSet s1 wi.1 wi.1 wi.2

/-- `ExecutionState::inst_call` (`vm.rs` lines 595-607): like `inst_jump`
but first pushes the encoded ip onto the address stack (the
`Cell::try_from` of a `u32` value cannot fail). -/
def instCall (ifz : Bool) (s0 : ExecutionState) : Except VMErr ExecutionState := do
  let (ip, s1) ← dataPop s0
  if ifz then
    let (p, s2) ← dataPop s1
    if p ≠ 0 then
      pure s2
    else
      let current ← ipGetEncoded s2
      let s3 := addressPush s2 current
      let wi := jumpTargetIndices ip
      ipSet s3 wi.1 wi.1 wi.2
  else
    let current ← ipGetEncoded s1
    let s2 := addressPush s1 current
    let wi := jumpTargetIndices ip
    ipSet s2 wi.1 wi.1 wi.2

/-- `ExecutionState::inst_return` (`vm.rs` lines 610-620): with `ifz` it
peeks the predicate, leaves everything unchanged when it is nonzero and
pops it otherwise; then (or unconditionally without `ifz`) it pops the
address stack and restores the encoded ip. -/
def instReturn (ifz : Bool) (s0 : ExecutionState) : Except VMErr ExecutionState := do
  if ifz then
    let p ← dataPeek s0
    if p ≠ 0 then
      pure s0
    else
      let (_, s1) ← dataPop s0
      let (ip, s2) ← addressPop s1
      ipSetEncoded s2 ip
  else
    let (ip, s1) ← addressPop s0
    ipSetEncoded s1 ip

/-- `ExecutionState::inst_load` (`vm.rs` lines 637-654): pops a byte
address; when aligned pushes `image[address / 4]`; when misaligned by
`r` assembles the value with `shift = 2 * r`, `mask = 0xFFFFFFFF >> shift`,
`high = (image[address / 4] & mask) << shift` (a `u32` shift, hence the
`% 2 ^ 32`) and `low = (image[address / 4 + 1] & !mask) >> (8 - shift)`.
The streaming variant additionally pushes `address as u32 + 4`. -/
def instLoad (stream : Bool) (s0 : ExecutionState) : Except VMErr ExecutionState := do
  let (address, s1) ← dataPop s0
  let r := address % 4
  let value ←
    if r = 0 then
      imageGet s1.image (address / 4)
    else do
      let shift := 2 * r
      let mask := 0xFFFFFFFF >>> shift
      let w0 ← imageGet s1.image (address / 4)
      let w1 ← imageGet s1.image (address / 4 + 1)
      let high := ((w0 &&& mask) <<< shift) % 2 ^ 32
      let low := (w1 &&& (0xFFFFFFFF ^^^ mask)) >>> (8 - shift)
      pure (high ||| low)
  let s2 := dataPush s1 value
  if stream then
    pure (dataPush s2 ((address + 4) % 2 ^ 32))
  else
    pure s2

/-- `ExecutionState::inst_store` (`vm.rs` lines 670-691): pops the value,
then the byte address; when aligned writes `image[address / 4] = value`;
when misaligned by `r` computes `shift = 2 * r`,
`mask = 0xFFFFFFFF >> shift`, `low = value & !mask`, `high = value & mask`
and writes `image[address / 4] = (image[address / 4] & mask) | low` and
`image[address / 4 + 1] = (image[address / 4 + 1] & mask) | high`.  The
streaming variant additionally pushes `(address + 4) as u32`. -/
def instStore (stream : Bool) (s0 : ExecutionState) : Except VMErr ExecutionState := do
  let (value, s1) ← dataPop s0
  let (address, s2) ← dataPop s1
  let r := address % 4
  let s3 ←
    if r = 0 then do
      let img ← imageSet s2.image (address / 4) value
      pure { s2 with image := img }
    else do
      let shift := 2 * r
      let mask := 0xFFFFFFFF >>> shift
      let low := value &&& (0xFFFFFFFF ^^^ mask)
      let high := value &&& mask
      let w0 ← imageGet s2.image (address / 4)
      let img0 ← imageSet s2.image (address / 4) ((w0 &&& mask) ||| low)
      let w1 ← imageGet img0 (address / 4 + 1)
      let img1 ← imageSet img0 (address / 4 + 1) ((w1 &&& mask) ||| high)
      pure { s2 with image := img1 }
  if stream then
    pure (dataPush s3 ((address + 4) % 2 ^ 32))
  else
    pure s3

/-- `ExecutionState::inst_equal` (`vm.rs` lines 507-512): pops two cells
and pushes `Cell::from(-1)` when they are equal, `Cell::from(0)`
otherwise. -/
def instEqual (s0 : ExecutionState) : Except VMErr ExecutionState := do
  let (tos, s1) ← dataPop s0
  let (nos, s2) ← dataPop s1
  pure (dataPush s2 (if tos = nos then cellFromI32 (-1) else cellFromI32 0))

/-- `ExecutionState::inst_less_than` (`vm.rs` lines 514-519): the derived
order of `Cell(u32)` is the unsigned order on the bit pattern, here the
`Nat` order on the cell values. -/
def instLessThan (s0 : ExecutionState) : Except VMErr ExecutionState := do
  let (tos, s1) ← dataPop s0
  let (nos, s2) ← dataPop s1
  pure (dataPush s2 (if tos < nos then cellFromI32 (-1) else cellFromI32 0))

/-- `ExecutionState::inst_greater_than` (`vm.rs` lines 521-526). -/
def instGreaterThan (s0 : ExecutionState) : Except VMErr ExecutionState := do
  let (tos, s1) ← dataPop s0
  let (nos, s2) ← dataPop s1
  pure (dataPush s2 (if tos > nos then cellFromI32 (-1) else cellFromI32 0))

/-- The string flavors of `parser/ast.rs` (`StringTag`): raw,
NUL-terminated, and 32-bit-length-prefixed. -/
inductive StringTag where
  | R
  | C
  | S
deriving DecidableEq

/-- The scalar sizes of `parser/ast.rs` (`Size`). -/
inductive AsmSize where
  | s8
  | s16
  | s32
deriving DecidableEq

/-- `Size::size_in_bytes` (`ast.rs` lines 47-53). -/
def AsmSize.sizeInBytes : AsmSize → Nat
  | .s8 => 1
  | .s16 => 2
  | .s32 => 4

/-- `ast::Data` (`ast.rs` lines 57-61): a sized scalar or a string.  The
scalar's expression is omitted because it does not contribute to the
layout addresses; string content is its byte list. -/
inductive AsmData where
  | d (size : AsmSize)
  | str (tag : StringTag) (content : List Nat)
deriving DecidableEq

/-- `Data::size_in_bytes` (`ast.rs` lines 63-72). -/
def AsmData.sizeInBytes : AsmData → Nat
  | .d size => size.sizeInBytes
  | .str .R content => content.length
  | .str .C content => content.length + 1
  | .str .S content => content.length + 4

/-- The placeable line bodies of `ast::LineBody` (`ast.rs` lines
100-107): data or a simple opcode (byte).  Directives and definition
references do not themselves receive an address. -/
inductive AsmLineBody where
  | data (dat : AsmData)
  | simple (op : Nat)
deriving DecidableEq

/-- `Processor::align_to` (`processor.rs` lines 210-217): rounds the
running position up to a multiple of `boundary` and returns the new
position. -/
def alignTo (position boundary : Nat) : Nat :=
  let padding := boundary - position % boundary
  if padding ≠ boundary then position + padding else position

/-- The address computation of `Processor::process_line_body`
(`processor.rs` lines 279-308) for data and simple-opcode bodies,
returning `(assigned address, new running position)`.  The source arm
`ast::LineBody::Data(data @ ast::Data::Str(_, _))` matches a string of
EVERY tag (its wildcard does not restrict to sized strings) and aligns
the position to `WORD_SIZE = 4` before placing; every other data body is
placed at the running position; a simple opcode is placed at the running
position and advances it by one byte (`process_data` advances the
position by `size_in_bytes`). -/
def processLineBodyAddr (position : Nat) (body : AsmLineBody) : Nat × Nat :=
  match body with
  | .data dat =>
    match dat with
    | .str _ _ =>
      let p := alignTo position 4
      (p, p + dat.sizeInBytes)
    | _ => (position, position + dat.sizeInBytes)
  | .simple _ => (position, position + 1)

/-- `GenericDeviceCommand` (`device.rs` lines 33-39); the `u8`/`u16`
fields become `Nat`s constrained by `wellFormedCommand`. -/
inductive GenericDeviceCommand where
  | Reset
  | Execute (command : Nat) (argument : Nat)
  | GetRegister (index : Nat)
  | SetRegister (index : Nat) (value : Nat)
deriving DecidableEq

/-- The field bounds imposed by the Rust types `u8` (register index,
sub-command, argument) and `u16` (register value). -/
def wellFormedCommand : GenericDeviceCommand → Prop
  | .Reset => True
  | .Execute c a => c < 2 ^ 8 ∧ a < 2 ^ 8
  | .GetRegister i => i < 2 ^ 8
  | .SetRegister i v => i < 2 ^ 8 ∧ v < 2 ^ 16

/-- `GenericDeviceCommand::decode` (`device.rs` lines 54-75): the tag is
the high byte (`Reset = 0`, `Get = 1`, `Set = 2`, `Exec = 3`); a `Get`
with nonzero low 16 bits is malformed. -/
def decodeCommand (value : Nat) : Option GenericDeviceCommand :=
  let command := (value &&& 0xFF000000) >>> 24
  if command = 1 then
    if value &&& 0x0000FFFF ≠ 0 then
      none
    else
      some (.GetRegister ((value &&& 0x00FF0000) >>> 16))
  else if command = 2 then
    some (.SetRegister ((value &&& 0x00FF0000) >>> 16) (value &&& 0x0000FFFF))
  else if command = 3 then
    some (.Execute ((value &&& 0x0000FF00) >>> 8) (value &&& 0x000000FF))
  else if value = 0 then
    some .Reset
  else
    none

/-- `GenericDeviceCommand::encode` (`device.rs` lines 77-84). -/
def encodeCommand : GenericDeviceCommand → Nat
  | .Reset => 0
  | .GetRegister index => (1 <<< 24) ||| (index <<< 16)
  | .SetRegister index value => (2 <<< 24) ||| (index <<< 16) ||| value
  | .Execute command argument => (3 <<< 24) ||| (command <<< 8) ||| argument

/-! Helper lemmas about `Nat` bit operations and list updates, shared by
the claim theorems below. -/

/-- Right shift distributes over bitwise and. -/
theorem land_shiftRight_distrib (a b n : Nat) :
    (a &&& b) >>> n = (a >>> n) &&& (b >>> n) := by
  induction n with
  | zero => simp
  | succ k ih =>
    rw [Nat.shiftRight_succ, Nat.shiftRight_succ, Nat.shiftRight_succ, ih,
      Nat.and_div_two]

/-- A value masked with `0xFFFFFFFF >> n` and shifted back left by `n`
stays below `2 ^ 32`, so the `u32` truncation is the identity on it. -/
theorem masked_shl_lt (x n : Nat) :
    ((x &&& (4294967295 >>> n)) <<< n) % 4294967296 = (x &&& (4294967295 >>> n)) <<< n := by
  apply Nat.mod_eq_of_lt
  have h1 : x &&& (4294967295 >>> n) ≤ 4294967295 >>> n := Nat.and_le_right
  rw [Nat.shiftLeft_eq]
  rw [Nat.shiftRight_eq_div_pow] at h1 ⊢
  have h2 : (4294967295 / 2 ^ n) * 2 ^ n ≤ 4294967295 := Nat.div_mul_le_self _ _
  have h3 : (x &&& 4294967295 / 2 ^ n) * 2 ^ n ≤ (4294967295 / 2 ^ n) * 2 ^ n :=
    Nat.mul_le_mul_right _ h1
  omega

/-- Reading back the element just written by `List.set`. -/
theorem getD_set_self (l : List Nat) (i v : Nat) (h : i < l.length) :
    (l.set i v).getD i 0 = v := by
  simp [List.getD_eq_getElem?_getD, List.getElem?_set_self h]

/-- `List.set` leaves every other position unchanged. -/
theorem getD_set_ne (l : List Nat) (i j v : Nat) (h : i ≠ j) :
    (l.set i v).getD j 0 = l.getD j 0 := by
  simp [List.getD_eq_getElem?_getD, List.getElem?_set_ne h]

/-- Some claim: C4 counterexample.  The claim says the `ip()` accessor equals
`loaded_word_index * 4 + instruction_index`; in the state reached after a
`lit` at byte 0 (`loaded_word_index = 0`, `current_word_index = 1`,
`instruction_index = 1`) the accessor computes
`current_word_index * 4 + instruction_index = 5`, not `1`. -/
theorem ip_accessor_counterexample :
    ¬ ((⟨1, 0, 1, 1, [1, 7], [7], []⟩ : ExecutionState).ip =
       (⟨1, 0, 1, 1, [1, 7], [7], []⟩ : ExecutionState).loaded_word_index * 4 +
       (⟨1, 0, 1, 1, [1, 7], [7], []⟩ : ExecutionState).instruction_index) := by
  decide

/-- Claim C4, amended: the ip attached to runtime errors by
`with_ip_from_state` is `loaded_word_index * 4 + instruction_index`,
while the `ip()` accessor is
`current_word_index * 4 + instruction_index`; the two agree exactly when
`current_word_index = loaded_word_index`. -/
theorem ip_accessor_amended (s : ExecutionState) :
    s.ip = s.current_word_index * 4 + s.instruction_index ∧
    ipFromStateForError s = s.loaded_word_index * 4 + s.instruction_index ∧
    (s.current_word_index = s.loaded_word_index →
      s.ip = s.loaded_word_index * 4 + s.instruction_index) := by
  refine ⟨rfl, rfl, fun h => ?_⟩
  simp [ExecutionState.ip, cellSize, h]

/-- Witness for `ip_accessor_amended` at a concrete state. -/
theorem ip_accessor_amended_witness :
    (⟨1, 0, 1, 1, [1, 7], [7], []⟩ : ExecutionState).ip = 5 ∧
    ipFromStateForError ⟨1, 0, 1, 1, [1, 7], [7], []⟩ = 1 := by
  have h := ip_accessor_amended ⟨1, 0, 1, 1, [1, 7], [7], []⟩
  exact ⟨h.1.trans (by decide), h.2.1.trans (by decide)⟩

/-- Claim C8: the out-of-bounds guards of `ip_inc` and `ip_set` use
`image.len() < loaded_word_index`, so the boundary case
`loaded_word_index = image length` passes the guard and the subsequent
`image[loaded_word_index]` read panics with an index error instead of
returning the ip-out-of-bounds runtime error; only the strict case
`loaded_word_index > image length` is reported as `ip_oob` with the
offending ip. -/
theorem ip_bound_check_off_by_one :
    ipInc ⟨3, 0, 0, 9, [9], [], []⟩ = .error .panicIndex ∧
    ipSet ⟨0, 0, 0, 9, [9], [], []⟩ 1 1 0 = .error .panicIndex ∧
    ipSet ⟨0, 0, 0, 9, [9], [], []⟩ 2 2 0 = .error (.ipOob 8) :=
  ⟨rfl, rfl, rfl⟩

/-- Claim C9: the `process_line_body` arm for strings matches every
string tag, so a raw (R) string and a NUL-terminated (C) string at
running position 1 are also aligned up to address 4 (refuting the claim
that only sized strings are aligned), a sized (S) string is aligned, and
sized scalar data and a simple opcode stay at position 1. -/
theorem string_alignment_applies_to_every_tag :
    processLineBodyAddr 1 (.data (.str .R [97, 98])) = (4, 6) ∧
    processLineBodyAddr 1 (.data (.str .C [97])) = (4, 6) ∧
    processLineBodyAddr 1 (.data (.str .S [97])) = (4, 9) ∧
    processLineBodyAddr 1 (.data (.d .s8)) = (1, 2) ∧
    processLineBodyAddr 1 (.simple 0) = (1, 2) :=
  ⟨rfl, rfl, rfl, rfl, rfl⟩

/-- Claim C7: with two cells on the data stack, `eq`, `lt` and `gt` pop
both and push exactly `0xFFFFFFFF` when the comparison holds and `0`
otherwise, the order being the `Nat` (unsigned) order on the cell
values. -/
theorem comparison_semantics (s : ExecutionState) (tos nos : Nat) (ds : List Nat)
    (h : s.data = tos :: nos :: ds) :
    instEqual s = .ok (dataPush { s with data := ds } (if tos = nos then 0xFFFFFFFF else 0)) ∧
    instLessThan s = .ok (dataPush { s with data := ds } (if tos < nos then 0xFFFFFFFF else 0)) ∧
    instGreaterThan s = .ok (dataPush { s with data := ds } (if tos > nos then 0xFFFFFFFF else 0)) := by
  obtain ⟨ii, lw, cw, w, img, dat, adr⟩ := s
  simp only at h
  subst h
  have hneg : cellFromI32 (-1) = 0xFFFFFFFF := by decide
  have hzero : cellFromI32 0 = 0 := by decide
  refine ⟨?_, ?_, ?_⟩ <;>
    simp [instEqual, instLessThan, instGreaterThan, dataPop, dataPush,
      Bind.bind, Except.bind, Pure.pure, Except.pure, hneg, hzero]

/-- Witness for `comparison_semantics` at a concrete state. -/
theorem comparison_semantics_witness :
    instLessThan ⟨0, 0, 0, 0, [0], [3, 5], []⟩ =
      .ok ⟨0, 0, 0, 0, [0], [0xFFFFFFFF], []⟩ := by
  have h := comparison_semantics ⟨0, 0, 0, 0, [0], [3, 5], []⟩ 3 5 [] rfl
  exact h.2.1.trans (by rfl)

/-- Claim C6: `ret` unconditionally pops the address stack and restores
the three indices decoded from the popped encoded ip, while `ifz:ret`
peeks the predicate: a nonzero predicate leaves the state (both stacks
included) completely unchanged, and a zero predicate is popped before
the return address is popped and restored. -/
theorem ret_ifzret_asymmetry (s : ExecutionState) (p e : Nat) (ds as : List Nat) :
    (s.address = e :: as → e >>> 17 < s.image.length →
      instReturn false s = .ok
        { s with address := as,
                 loaded_word_index := e >>> 17,
                 current_word_index := (e >>> 2) &&& 0x7FFF,
                 instruction_index := e &&& 3,
                 word := s.image.getD (e >>> 17) 0 }) ∧
    (s.data = p :: ds → p ≠ 0 → instReturn true s = .ok s) ∧
    (s.data = 0 :: ds → s.address = e :: as → e >>> 17 < s.image.length →
      instReturn true s = .ok
        { s with data := ds, address := as,
                 loaded_word_index := e >>> 17,
                 current_word_index := (e >>> 2) &&& 0x7FFF,
                 instruction_index := e &&& 3,
                 word := s.image.getD (e >>> 17) 0 }) := by
  obtain ⟨ii, lw, cw, w, img, dat, adr⟩ := s
  refine ⟨fun ha hb => ?_, fun hd hp => ?_, fun hd ha hb => ?_⟩
  · simp only at ha
    subst ha
    have hb' : e >>> 17 < img.length := hb
    have hl : ¬ (img.length < e >>> 17) := by omega
    simp [instReturn, addressPop, ipSetEncoded, ipSet, imageGet,
      Bind.bind, Except.bind, hl, hb']
  · simp only at hd
    subst hd
    simp [instReturn, dataPeek, Bind.bind, Except.bind, Pure.pure, Except.pure, hp]
  · simp only at hd ha
    subst hd
    subst ha
    have hb' : e >>> 17 < img.length := hb
    have hl : ¬ (img.length < e >>> 17) := by omega
    simp [instReturn, dataPeek, dataPop, addressPop, ipSetEncoded, ipSet,
      imageGet, Bind.bind, Except.bind, hl, hb']

/-- Witness for `ret_ifzret_asymmetry` at concrete states: a plain `ret`
with encoded ip `e = (1 << 17) | (2 << 2) | 3 = 131083`, an `ifz:ret`
with nonzero predicate, and an `ifz:ret` with zero predicate. -/
theorem ret_ifzret_asymmetry_witness :
    instReturn false ⟨0, 0, 0, 10, [10, 20], [], [131083]⟩ =
      .ok ⟨3, 1, 2, 20, [10, 20], [], []⟩ ∧
    instReturn true ⟨0, 0, 0, 10, [10, 20], [7], [131083]⟩ =
      .ok ⟨0, 0, 0, 10, [10, 20], [7], [131083]⟩ ∧
    instReturn true ⟨0, 0, 0, 10, [10, 20], [0], [131083]⟩ =
      .ok ⟨3, 1, 2, 20, [10, 20], [], []⟩ := by
  have h1 := ret_ifzret_asymmetry ⟨0, 0, 0, 10, [10, 20], [], [131083]⟩ 0 131083 [] []
  have h2 := ret_ifzret_asymmetry ⟨0, 0, 0, 10, [10, 20], [7], [131083]⟩ 7 131083 [] []
  have h3 := ret_ifzret_asymmetry ⟨0, 0, 0, 10, [10, 20], [0], [131083]⟩ 0 131083 [] []
  exact ⟨(h1.1 rfl (by decide)).trans rfl,
         h2.2.1 rfl (by decide),
         (h3.2.2 rfl rfl (by decide)).trans rfl⟩

/-- Claim C1: with byte address `A` on top of the data stack and the
accessed words in bounds, `load` pops `A` and pushes `image[A / 4]` when
`A` is aligned; when misaligned by `r = A % 4 ∈ {1, 2, 3}` it pushes
exactly `high ||| low` with `shift = 2 * r`,
`mask = 0xFFFFFFFF >>> shift`, `high = (image[A / 4] &&& mask) <<< shift`
and `low = (image[A / 4 + 1] &&& ~~~mask) >>> (8 - shift)` (the
complement being the 32-bit one). -/
theorem load_shift_schedule (s : ExecutionState) (A : Nat) (ds : List Nat)
    (hdata : s.data = A :: ds)
    (h0 : A / 4 < s.image.length)
    (h1 : A % 4 ≠ 0 → A / 4 + 1 < s.image.length) :
    instLoad false s = .ok (dataPush { s with data := ds }
      (if A % 4 = 0 then s.image.getD (A / 4) 0
       else
         ((s.image.getD (A / 4) 0 &&& (0xFFFFFFFF >>> (2 * (A % 4)))) <<< (2 * (A % 4))) |||
         ((s.image.getD (A / 4 + 1) 0 &&& (0xFFFFFFFF ^^^ (0xFFFFFFFF >>> (2 * (A % 4))))) >>>
            (8 - 2 * (A % 4))))) := by
  obtain ⟨ii, lw, cw, w, img, dat, adr⟩ := s
  simp only at hdata h0 h1
  subst hdata
  by_cases hr : A % 4 = 0
  · simp [instLoad, dataPop, dataPush, imageGet, Bind.bind, Except.bind,
      Pure.pure, Except.pure, hr, h0]
  · have h1' := h1 hr
    simp [instLoad, dataPop, dataPush, imageGet, Bind.bind, Except.bind,
      Pure.pure, Except.pure, hr, h0, h1']
    congr 1
    exact masked_shl_lt _ _

/-- Witness for `load_shift_schedule`: a misaligned load at byte address
1 over the image `[0x11223344, 0x55667788]`. -/
theorem load_shift_schedule_witness :
    instLoad false ⟨0, 0, 0, 0, [0x11223344, 0x55667788], [1], []⟩ =
      .ok ⟨0, 0, 0, 0, [0x11223344, 0x55667788], [0x4588CD10], []⟩ := by
  have h := load_shift_schedule ⟨0, 0, 0, 0, [0x11223344, 0x55667788], [1], []⟩ 1 []
    rfl (by decide) (fun _ => by decide)
  exact h.trans (by rfl)

/-- Claim C5 counterexample: storing the 32-bit value `1` at the
misaligned byte address `1` over the image `[0, 0]` and loading the same
address back pushes `0`, not the stored value `1` (the misaligned store
and load mask schedules do not mirror each other). -/
theorem store_load_roundtrip_counterexample :
    Except.bind (instStore false ⟨0, 0, 0, 0, [0, 0], [1, 1], []⟩)
        (fun s1 => instLoad false (dataPush s1 1)) =
      .ok ⟨0, 0, 0, 0, [0, 1], [0], []⟩ ∧ (0 : Nat) ≠ 1 :=
  ⟨rfl, by decide⟩

/-- Claim C5, amended: `store` pops the value and the address and writes
only `image[A / 4]` (and `image[A / 4 + 1]` when misaligned), leaving
every other word unchanged; and at a word-aligned address a `store`
followed by a `load` of the same address pushes back exactly the stored
value.  (The misaligned round trip fails, see the counterexample.) -/
theorem store_load_aligned_roundtrip (s : ExecutionState) (A V : Nat) (ds : List Nat)
    (hdata : s.data = V :: A :: ds)
    (hV : V < 2 ^ 32)
    (h0 : A / 4 < s.image.length)
    (h1 : A % 4 ≠ 0 → A / 4 + 1 < s.image.length) :
    ∃ s1, instStore false s = .ok s1 ∧ s1.data = ds ∧ s1.address = s.address ∧
      s1.image.length = s.image.length ∧
      (A % 4 = 0 → instLoad false (dataPush s1 A) = .ok (dataPush s1 V)) ∧
      (∀ j, j ≠ A / 4 → j ≠ A / 4 + 1 → s1.image.getD j 0 = s.image.getD j 0) := by
  obtain ⟨ii, lw, cw, w, img, dat, adr⟩ := s
  simp only at hdata h0 h1
  subst hdata
  by_cases hr : A % 4 = 0
  · refine ⟨⟨ii, lw, cw, w, img.set (A / 4) V, ds, adr⟩, ?_, rfl, rfl, by simp, ?_, ?_⟩
    · simp [instStore, dataPop, imageSet, Bind.bind, Except.bind,
        Pure.pure, Except.pure, hr, h0]
    · intro _
      simp [instLoad, dataPop, dataPush, imageGet, Bind.bind, Except.bind,
        Pure.pure, Except.pure, hr, h0, getD_set_self img (A / 4) V h0]
    · intro j hj1 _
      exact getD_set_ne img (A / 4) j V (Ne.symm hj1)
  · have h1' := h1 hr
    refine ⟨⟨ii, lw, cw, w,
      (img.set (A / 4)
          ((img.getD (A / 4) 0 &&& (0xFFFFFFFF >>> (2 * (A % 4)))) |||
           (V &&& (0xFFFFFFFF ^^^ (0xFFFFFFFF >>> (2 * (A % 4))))))).set (A / 4 + 1)
        (((img.set (A / 4)
            ((img.getD (A / 4) 0 &&& (0xFFFFFFFF >>> (2 * (A % 4)))) |||
             (V &&& (0xFFFFFFFF ^^^ (0xFFFFFFFF >>> (2 * (A % 4))))))).getD (A / 4 + 1) 0 &&&
            (0xFFFFFFFF >>> (2 * (A % 4)))) |||
         (V &&& (0xFFFFFFFF >>> (2 * (A % 4))))),
      ds, adr⟩, ?_, rfl, rfl, by simp, fun h => absurd h hr, ?_⟩
    · simp [instStore, dataPop, imageSet, imageGet, Bind.bind, Except.bind,
        Pure.pure, Except.pure, hr, h0, h1']
    · intro j hj1 hj2
      rw [getD_set_ne _ _ _ _ (Ne.symm hj2), getD_set_ne _ _ _ _ (Ne.symm hj1)]

/-- Witness for `store_load_aligned_roundtrip`: storing `77` at the
aligned byte address `4` over the image `[5, 6]` and loading it back. -/
theorem store_load_aligned_roundtrip_witness :
    ∃ s1, instStore false ⟨0, 0, 0, 0, [5, 6], [77, 4], []⟩ = .ok s1 ∧
      instLoad false (dataPush s1 4) = .ok (dataPush s1 77) := by
  obtain ⟨s1, hs, _, _, _, hload, _⟩ :=
    store_load_aligned_roundtrip ⟨0, 0, 0, 0, [5, 6], [77, 4], []⟩ 4 77 [] rfl
      (by decide) (by decide) (fun h => absurd rfl h)
  exact ⟨s1, hs, hload rfl⟩

/-- Computation lemma: a successful `ip_set` with the target word in
bounds. -/
theorem ipSet_ok (s : ExecutionState) (lw cw ii : Nat) (h : lw < s.image.length) :
    ipSet s lw cw ii = .ok { s with loaded_word_index := lw, current_word_index := cw,
                                    instruction_index := ii,
                                    word := s.image.getD lw 0 } := by
  simp [ipSet, imageGet, Bind.bind, Except.bind, h, Nat.not_lt.mpr (Nat.le_of_lt h)]

/-- Computation lemma: `ip_inc` in the middle of a word only advances
the instruction index (with the wrapping `usize` increment). -/
theorem ipInc_mid (s : ExecutionState) (h : s.instruction_index ≠ 3) :
    ipInc s = .ok { s with instruction_index := uAdd s.instruction_index 1 } := by
  simp [ipInc, cellSize, h]

/-- Computation lemma: `ip_inc` at the end of a word advances both word
indices and reloads the word. -/
theorem ipInc_end (s : ExecutionState) (h : s.instruction_index = 3)
    (hb : uAdd s.current_word_index 1 < s.image.length) :
    ipInc s = .ok { s with current_word_index := uAdd s.current_word_index 1,
                           loaded_word_index := uAdd s.current_word_index 1,
                           instruction_index := 0,
                           word := s.image.getD (uAdd s.current_word_index 1) 0 } := by
  simp [ipInc, cellSize, h, imageGet, Bind.bind, Except.bind, hb,
    Nat.not_lt.mpr (Nat.le_of_lt hb)]

/-- Computation lemma: popping a nonempty data stack. -/
theorem dataPop_cons (s : ExecutionState) (x : Nat) (xs : List Nat) (h : s.data = x :: xs) :
    dataPop s = .ok (x, { s with data := xs }) := by
  simp [dataPop, h]

set_option maxRecDepth 4000 in
/-- Claim C2: `jump` (and `call`, which first pushes the encoded ip)
pops a byte address `A` and sets the word and instruction indices to
`(A / 4 - 1, 3)` when `A` is a nonzero multiple of 4 and to
`(A / 4, (A % 4) - 1)` otherwise (the subtraction being the machine's
wrapping `usize` subtraction), so that after the post-step advance the
fetched opcode is exactly the byte at address `A`. -/
theorem jump_call_byte_addressing (s : ExecutionState) (A : Nat) (ds : List Nat)
    (hdata : s.data = A :: ds)
    (hA : A / 4 < s.image.length)
    (hA32 : A < 2 ^ 32) :
    (∃ s1, instJump false s = .ok s1 ∧
      s1.data = ds ∧ s1.image = s.image ∧ s1.address = s.address ∧
      (if A ≠ 0 ∧ A % 4 = 0
        then s1.loaded_word_index = A / 4 - 1 ∧ s1.instruction_index = 3
        else s1.loaded_word_index = A / 4 ∧
          s1.instruction_index = (A % 4 + (2 ^ 64 - 1)) % 2 ^ 64) ∧
      s1.current_word_index = s1.loaded_word_index ∧
      ∃ s2, ipInc s1 = .ok s2 ∧
        s2.loaded_word_index = A / 4 ∧ s2.instruction_index = A % 4 ∧
        s2.loaded_word_index * 4 + s2.instruction_index = A ∧
        wordByte s2.word s2.instruction_index = byteAt s.image A) ∧
    (s.instruction_index < 4 → s.loaded_word_index < 2 ^ 15 →
      s.current_word_index < 2 ^ 15 →
      ∃ e s1, ipGetEncoded s = .ok e ∧ instCall false s = .ok s1 ∧
        s1.data = ds ∧ s1.image = s.image ∧ s1.address = e :: s.address ∧
        (if A ≠ 0 ∧ A % 4 = 0
          then s1.loaded_word_index = A / 4 - 1 ∧ s1.instruction_index = 3
          else s1.loaded_word_index = A / 4 ∧
            s1.instruction_index = (A % 4 + (2 ^ 64 - 1)) % 2 ^ 64) ∧
        s1.current_word_index = s1.loaded_word_index) := by
  obtain ⟨ii, lw, cw, w, img, dat, adr⟩ := s
  simp only at hdata hA
  subst hdata
  have hsub : uSub (A % 4) 1 = (A % 4 + (2 ^ 64 - 1)) % 2 ^ 64 := by
    simp [uSub, usizeMod]
  constructor
  · -- the jump half
    have hjump : instJump false ⟨ii, lw, cw, w, img, A :: ds, adr⟩ =
        ipSet ⟨ii, lw, cw, w, img, ds, adr⟩ (jumpTargetIndices A).1
          (jumpTargetIndices A).1 (jumpTargetIndices A).2 := by
      simp [instJump, dataPop, Bind.bind, Except.bind]
    by_cases h : A ≠ 0 ∧ A % 4 = 0
    · have hw : jumpTargetIndices A = (A / 4 - 1, 3) := by
        simp [jumpTargetIndices, h]
      have hge : 1 ≤ A / 4 := by omega
      refine ⟨⟨3, A / 4 - 1, A / 4 - 1, img.getD (A / 4 - 1) 0, img, ds, adr⟩,
        ?_, rfl, rfl, rfl, ?_, rfl, ?_⟩
      · rw [hjump, hw]
        exact ipSet_ok _ _ _ _ (show A / 4 - 1 < img.length by omega)
      · rw [if_pos h]
        exact ⟨rfl, rfl⟩
      · have hc : uAdd (A / 4 - 1) 1 = A / 4 := by
          simp only [uAdd, usizeMod]
          have : A / 4 < 2 ^ 64 := by omega
          omega
        refine ⟨⟨0, A / 4, A / 4, img.getD (A / 4) 0, img, ds, adr⟩, ?_, rfl, ?_, ?_, ?_⟩
        · rw [ipInc_end _ rfl (show uAdd (A / 4 - 1) 1 < img.length by rw [hc]; exact hA)]
          rw [hc]
        · exact h.2.symm
        · show A / 4 * 4 + 0 = A
          omega
        · simp [byteAt, h.2]
    · have hw : jumpTargetIndices A = (A / 4, uSub (A % 4) 1) := by
        simp only [jumpTargetIndices, if_neg h]
      have hne : uSub (A % 4) 1 ≠ 3 := by
        simp only [uSub, usizeMod]
        omega
      have hinc : uAdd (uSub (A % 4) 1) 1 = A % 4 := by
        simp only [uAdd, uSub, usizeMod]
        omega
      refine ⟨⟨uSub (A % 4) 1, A / 4, A / 4, img.getD (A / 4) 0, img, ds, adr⟩,
        ?_, ?_, ?_, ?_, ?_, ?_, ?_⟩
      · rw [hjump, hw]
        exact ipSet_ok _ _ _ _ hA
      · exact rfl
      · exact rfl
      · exact rfl
      · rw [if_neg h]
        exact ⟨rfl, hsub⟩
      · exact rfl
      · refine ⟨⟨uAdd (uSub (A % 4) 1) 1, A / 4, A / 4, img.getD (A / 4) 0, img, ds, adr⟩,
          ?_, rfl, hinc, by show A / 4 * 4 + uAdd (uSub (A % 4) 1) 1 = A; rw [hinc]; omega, ?_⟩
        · exact ipInc_mid _ hne
        · rw [hinc]
          rfl
  · -- the call half
    intro hii hlw hcw
    have hb1 : lw &&& 0x7FFF = lw := by
      have h15 : (0x7FFF : Nat) = 2 ^ 15 - 1 := by norm_num
      rw [h15]
      exact Nat.and_pow_two_sub_one_of_lt_two_pow hlw
    have hb2 : cw &&& 0x7FFF = cw := by
      have h15 : (0x7FFF : Nat) = 2 ^ 15 - 1 := by norm_num
      rw [h15]
      exact Nat.and_pow_two_sub_one_of_lt_two_pow hcw
    have henc : ∀ dat' adr', ipGetEncoded ⟨ii, lw, cw, w, img, dat', adr'⟩ =
        .ok (((lw <<< 17) ||| (cw <<< 2) ||| ii) % 2 ^ 32) := by
      intro dat' adr'
      simp [ipGetEncoded, hii, hb1, hb2]
    have hcall : instCall false ⟨ii, lw, cw, w, img, A :: ds, adr⟩ =
        ipSet ⟨ii, lw, cw, w, img, ds,
            (((lw <<< 17) ||| (cw <<< 2) ||| ii) % 2 ^ 32) :: adr⟩
          (jumpTargetIndices A).1 (jumpTargetIndices A).1 (jumpTargetIndices A).2 := by
      simp [instCall, dataPop, Bind.bind, Except.bind, henc, addressPush]
    by_cases h : A ≠ 0 ∧ A % 4 = 0
    · have hw : jumpTargetIndices A = (A / 4 - 1, 3) := by
        simp [jumpTargetIndices, h]
      have hge : 1 ≤ A / 4 := by omega
      refine ⟨_, ⟨3, A / 4 - 1, A / 4 - 1, img.getD (A / 4 - 1) 0, img, ds,
        (((lw <<< 17) ||| (cw <<< 2) ||| ii) % 2 ^ 32) :: adr⟩,
        henc _ _, ?_, rfl, rfl, rfl, ?_, rfl⟩
      · rw [hcall, hw]
        exact ipSet_ok _ _ _ _ (show A / 4 - 1 < img.length by omega)
      · rw [if_pos h]
        exact ⟨rfl, rfl⟩
    · have hw : jumpTargetIndices A = (A / 4, uSub (A % 4) 1) := by
        simp only [jumpTargetIndices, if_neg h]
      refine ⟨_, ⟨uSub (A % 4) 1, A / 4, A / 4, img.getD (A / 4) 0, img, ds,
        (((lw <<< 17) ||| (cw <<< 2) ||| ii) % 2 ^ 32) :: adr⟩,
        henc _ _, ?_, ?_, ?_, ?_, ?_, ?_⟩
      · rw [hcall, hw]
        exact ipSet_ok _ _ _ _ hA
      · exact rfl
      · exact rfl
      · exact rfl
      · rw [if_neg h]
        exact ⟨rfl, hsub⟩
      · exact rfl

/-- Witness for `jump_call_byte_addressing`: a jump to the misaligned
byte address 5 over the image `[11, 22]` lands, after the post-step
advance, on byte 1 of word 1. -/
theorem jump_call_byte_addressing_witness :
    ∃ s1, instJump false ⟨0, 0, 0, 11, [11, 22], [5], []⟩ = .ok s1 ∧
      ∃ s2, ipInc s1 = .ok s2 ∧
        s2.loaded_word_index * 4 + s2.instruction_index = 5 ∧
        wordByte s2.word s2.instruction_index = byteAt [11, 22] 5 := by
  obtain ⟨⟨s1, hj, _, _, _, _, _, s2, hi, _, _, hprod, hbyte⟩, _⟩ :=
    jump_call_byte_addressing ⟨0, 0, 0, 11, [11, 22], [5], []⟩ 5 [] rfl
      (by decide) (by decide)
  exact ⟨s1, hj, s2, hi, hprod, hbyte⟩

/-- The packed encoded-ip word equals the corresponding sum when the
three indices respect the `assert!` bounds. -/
theorem encode_arith (lw cw ii : Nat) (hlw : lw < 2 ^ 15) (hcw : cw < 2 ^ 15)
    (hii : ii < 4) :
    (lw <<< 17) ||| (cw <<< 2) ||| ii = 2 ^ 17 * lw + 2 ^ 2 * cw + ii := by
  rw [Nat.shiftLeft_eq, Nat.shiftLeft_eq]
  have h1 : 2 ^ 17 * lw + cw * 2 ^ 2 = 2 ^ 17 * lw ||| cw * 2 ^ 2 :=
    Nat.mul_add_lt_is_or (by omega) lw
  have h2 : 2 ^ 2 * (2 ^ 15 * lw + cw) + ii = 2 ^ 2 * (2 ^ 15 * lw + cw) ||| ii :=
    Nat.mul_add_lt_is_or (by omega) (2 ^ 15 * lw + cw)
  calc lw * 2 ^ 17 ||| cw * 2 ^ 2 ||| ii
      = (2 ^ 17 * lw + cw * 2 ^ 2) ||| ii := by rw [Nat.mul_comm lw, h1]
    _ = (2 ^ 2 * (2 ^ 15 * lw + cw)) ||| ii := by ring_nf
    _ = 2 ^ 2 * (2 ^ 15 * lw + cw) + ii := h2.symm
    _ = 2 ^ 17 * lw + 2 ^ 2 * cw + ii := by ring

/-- Decoding the three fields out of the encoded-ip word restores the
indices. -/
theorem encoded_fields (lw cw ii : Nat) (hlw : lw < 2 ^ 15) (hcw : cw < 2 ^ 15)
    (hii : ii < 4) :
    (((lw <<< 17) ||| (cw <<< 2) ||| ii) % 2 ^ 32) >>> 17 = lw ∧
    ((((lw <<< 17) ||| (cw <<< 2) ||| ii) % 2 ^ 32) >>> 2) &&& 0x7FFF = cw ∧
    (((lw <<< 17) ||| (cw <<< 2) ||| ii) % 2 ^ 32) &&& 3 = ii := by
  have harith := encode_arith lw cw ii hlw hcw hii
  have hlt : 2 ^ 17 * lw + 2 ^ 2 * cw + ii < 2 ^ 32 := by omega
  rw [harith, Nat.mod_eq_of_lt hlt]
  refine ⟨?_, ?_, ?_⟩
  · rw [Nat.shiftRight_eq_div_pow]
    omega
  · rw [Nat.shiftRight_eq_div_pow, (by norm_num : (0x7FFF : Nat) = 2 ^ 15 - 1),
      Nat.and_pow_two_sub_one_eq_mod]
    omega
  · rw [(by norm_num : (3 : Nat) = 2 ^ 2 - 1), Nat.and_pow_two_sub_one_eq_mod]
    omega

/-- The `ip_set` issued by `jump`/`call` succeeds whenever the target
word is in bounds. -/
theorem jumpTarget_ipSet_ok (s : ExecutionState) (A : Nat) (hA : A / 4 < s.image.length) :
    ipSet s (jumpTargetIndices A).1 (jumpTargetIndices A).1 (jumpTargetIndices A).2 =
      .ok { s with loaded_word_index := (jumpTargetIndices A).1,
                   current_word_index := (jumpTargetIndices A).1,
                   instruction_index := (jumpTargetIndices A).2,
                   word := s.image.getD (jumpTargetIndices A).1 0 } := by
  apply ipSet_ok
  rcases Decidable.em (A ≠ 0 ∧ A % 4 = 0) with h | h
  · rw [jumpTargetIndices, if_pos h]
    exact (show A / 4 - 1 < s.image.length by omega)
  · rw [jumpTargetIndices, if_neg h]
    exact hA

/-- Claim C3: decoding the encoded ip
`(loaded_word_index << 17) | (current_word_index << 2) | instruction_index`
restores the three indices exactly, and hence a `call` immediately
followed by a `ret` restores the caller's byte position within the word
and its literal cursor (`current_word_index`), as well as the two
stacks. -/
theorem encoded_ip_roundtrip (s : ExecutionState) (A : Nat) (ds : List Nat)
    (hdata : s.data = A :: ds)
    (hA : A / 4 < s.image.length)
    (hLw : s.loaded_word_index < s.image.length)
    (hlw : s.loaded_word_index < 2 ^ 15)
    (hcw : s.current_word_index < 2 ^ 15)
    (hii : s.instruction_index < 4) :
    (∃ e, ipGetEncoded s = .ok e ∧
      e >>> 17 = s.loaded_word_index ∧
      (e >>> 2) &&& 0x7FFF = s.current_word_index ∧
      e &&& 3 = s.instruction_index) ∧
    (∃ s1 s2, instCall false s = .ok s1 ∧ instReturn false s1 = .ok s2 ∧
      s2.loaded_word_index = s.loaded_word_index ∧
      s2.current_word_index = s.current_word_index ∧
      s2.instruction_index = s.instruction_index ∧
      s2.data = ds ∧ s2.address = s.address ∧ s2.image = s.image) := by
  obtain ⟨ii, lw, cw, w, img, dat, adr⟩ := s
  simp only at hdata hA hLw hlw hcw hii
  subst hdata
  have hb1 : lw &&& 0x7FFF = lw := by
    rw [(by norm_num : (0x7FFF : Nat) = 2 ^ 15 - 1)]
    exact Nat.and_pow_two_sub_one_of_lt_two_pow hlw
  have hb2 : cw &&& 0x7FFF = cw := by
    rw [(by norm_num : (0x7FFF : Nat) = 2 ^ 15 - 1)]
    exact Nat.and_pow_two_sub_one_of_lt_two_pow hcw
  have hfields := encoded_fields lw cw ii hlw hcw hii
  have henc : ∀ dat' adr', ipGetEncoded ⟨ii, lw, cw, w, img, dat', adr'⟩ =
      .ok (((lw <<< 17) ||| (cw <<< 2) ||| ii) % 2 ^ 32) := by
    intro dat' adr'
    simp [ipGetEncoded, hii, hb1, hb2]
  constructor
  · exact ⟨_, henc _ _, hfields.1, hfields.2.1, hfields.2.2⟩
  · have hcall : instCall false ⟨ii, lw, cw, w, img, A :: ds, adr⟩ =
        ipSet ⟨ii, lw, cw, w, img, ds,
            (((lw <<< 17) ||| (cw <<< 2) ||| ii) % 2 ^ 32) :: adr⟩
          (jumpTargetIndices A).1 (jumpTargetIndices A).1 (jumpTargetIndices A).2 := by
      simp [instCall, dataPop, Bind.bind, Except.bind, henc, addressPush]
    refine ⟨_, ⟨ii, lw, cw, img.getD lw 0, img, ds, adr⟩,
      hcall.trans (jumpTarget_ipSet_ok _ A hA), ?_, rfl, rfl, rfl, rfl, rfl, rfl⟩
    show instReturn false
        ⟨(jumpTargetIndices A).2, (jumpTargetIndices A).1, (jumpTargetIndices A).1,
          img.getD (jumpTargetIndices A).1 0, img, ds,
          (((lw <<< 17) ||| (cw <<< 2) ||| ii) % 2 ^ 32) :: adr⟩ =
      .ok ⟨ii, lw, cw, img.getD lw 0, img, ds, adr⟩
    have hpop : addressPop
        ⟨(jumpTargetIndices A).2, (jumpTargetIndices A).1, (jumpTargetIndices A).1,
          img.getD (jumpTargetIndices A).1 0, img, ds,
          (((lw <<< 17) ||| (cw <<< 2) ||| ii) % 2 ^ 32) :: adr⟩ =
        .ok ((((lw <<< 17) ||| (cw <<< 2) ||| ii) % 2 ^ 32),
          ⟨(jumpTargetIndices A).2, (jumpTargetIndices A).1, (jumpTargetIndices A).1,
            img.getD (jumpTargetIndices A).1 0, img, ds, adr⟩) := rfl
    simp only [instReturn, Bind.bind, Except.bind, hpop, ipSetEncoded,
      hfields.1, hfields.2.1, hfields.2.2]
    exact ipSet_ok _ _ _ _ hLw

/-- Witness for `encoded_ip_roundtrip`: a `call` to byte address 8 from
the mid-word state `(instruction 2, loaded word 1, current word 2)`
followed by a `ret` restores all three indices. -/
theorem encoded_ip_roundtrip_witness :
    ∃ s1 s2, instCall false ⟨2, 1, 2, 2, [1, 2, 3], [8], []⟩ = .ok s1 ∧
      instReturn false s1 = .ok s2 ∧
      s2.loaded_word_index = 1 ∧ s2.current_word_index = 2 ∧
      s2.instruction_index = 2 := by
  obtain ⟨_, s1, s2, hc, hr, h1, h2, h3, _⟩ :=
    encoded_ip_roundtrip ⟨2, 1, 2, 2, [1, 2, 3], [8], []⟩ 8 [] rfl
      (by decide) (by decide) (by decide) (by decide) (by decide)
  exact ⟨s1, s2, hc, hr, h1, h2, h3⟩

/-- Masking the top byte and shifting equals shifting then masking with
`0xFF`. -/
theorem extract_byte_24 (x : Nat) : (x &&& 0xFF000000) >>> 24 = (x >>> 24) &&& 0xFF := by
  rw [land_shiftRight_distrib]
  congr 1

/-- Masking bits 23..16 and shifting equals shifting then masking with
`0xFF`. -/
theorem extract_byte_16 (x : Nat) : (x &&& 0x00FF0000) >>> 16 = (x >>> 16) &&& 0xFF := by
  rw [land_shiftRight_distrib]
  congr 1

/-- Masking bits 15..8 and shifting equals shifting then masking with
`0xFF`. -/
theorem extract_byte_8 (x : Nat) : (x &&& 0x0000FF00) >>> 8 = (x >>> 8) &&& 0xFF := by
  rw [land_shiftRight_distrib]
  congr 1

/-- Claim C10: for every well-formed generic device command, decoding
the encoded 32-bit command word yields back exactly the same command:
`decode` is a left inverse of `encode`. -/
theorem device_command_decode_encode (c : GenericDeviceCommand)
    (h : wellFormedCommand c) :
    decodeCommand (encodeCommand c) = some c := by
  cases c with
  | Reset => rfl
  | GetRegister i =>
    have hi : i < 2 ^ 8 := h
    have hx : encodeCommand (.GetRegister i) = 2 ^ 24 * 1 + 2 ^ 16 * i := by
      show (1 <<< 24) ||| (i <<< 16) = _
      rw [Nat.shiftLeft_eq, Nat.shiftLeft_eq, Nat.mul_comm 1, Nat.mul_comm i]
      exact (Nat.mul_add_lt_is_or (by omega) 1).symm
    have f1 : (encodeCommand (.GetRegister i) &&& 0xFF000000) >>> 24 = 1 := by
      rw [extract_byte_24, hx, Nat.shiftRight_eq_div_pow]
      have hd : (2 ^ 24 * 1 + 2 ^ 16 * i) / 2 ^ 24 = 1 := by omega
      rw [hd]
      decide
    have f2 : encodeCommand (.GetRegister i) &&& 0x0000FFFF = 0 := by
      rw [(by norm_num : (0x0000FFFF : Nat) = 2 ^ 16 - 1),
        Nat.and_pow_two_sub_one_eq_mod, hx]
      omega
    have f3 : (encodeCommand (.GetRegister i) &&& 0x00FF0000) >>> 16 = i := by
      rw [extract_byte_16, hx, Nat.shiftRight_eq_div_pow,
        (by norm_num : (0xFF : Nat) = 2 ^ 8 - 1), Nat.and_pow_two_sub_one_eq_mod]
      omega
    simp [decodeCommand, f1, f2, f3]
  | SetRegister i v =>
    obtain ⟨hi, hv⟩ := h
    have hx : encodeCommand (.SetRegister i v) = 2 ^ 24 * 2 + (2 ^ 16 * i + v) := by
      show (2 <<< 24) ||| (i <<< 16) ||| v = _
      rw [Nat.shiftLeft_eq, Nat.shiftLeft_eq]
      have h1 : 2 ^ 24 * 2 + i * 2 ^ 16 = 2 ^ 24 * 2 ||| i * 2 ^ 16 :=
        Nat.mul_add_lt_is_or (by omega) 2
      have h2 : 2 ^ 16 * (2 ^ 8 * 2 + i) + v = 2 ^ 16 * (2 ^ 8 * 2 + i) ||| v :=
        Nat.mul_add_lt_is_or (by omega) (2 ^ 8 * 2 + i)
      calc 2 * 2 ^ 24 ||| i * 2 ^ 16 ||| v
          = (2 ^ 24 * 2 + i * 2 ^ 16) ||| v := by rw [Nat.mul_comm 2, h1]
        _ = (2 ^ 16 * (2 ^ 8 * 2 + i)) ||| v := by ring_nf
        _ = 2 ^ 16 * (2 ^ 8 * 2 + i) + v := h2.symm
        _ = 2 ^ 24 * 2 + (2 ^ 16 * i + v) := by ring
    have f1 : (encodeCommand (.SetRegister i v) &&& 0xFF000000) >>> 24 = 2 := by
      rw [extract_byte_24, hx, Nat.shiftRight_eq_div_pow]
      have hd : (2 ^ 24 * 2 + (2 ^ 16 * i + v)) / 2 ^ 24 = 2 := by omega
      rw [hd]
      decide
    have f2 : encodeCommand (.SetRegister i v) &&& 0x0000FFFF = v := by
      rw [(by norm_num : (0x0000FFFF : Nat) = 2 ^ 16 - 1),
        Nat.and_pow_two_sub_one_eq_mod, hx]
      omega
    have f3 : (encodeCommand (.SetRegister i v) &&& 0x00FF0000) >>> 16 = i := by
      rw [extract_byte_16, hx, Nat.shiftRight_eq_div_pow,
        (by norm_num : (0xFF : Nat) = 2 ^ 8 - 1), Nat.and_pow_two_sub_one_eq_mod]
      omega
    simp [decodeCommand, f1, f2, f3]
  | Execute cm a =>
    obtain ⟨hc, ha⟩ := h
    have hx : encodeCommand (.Execute cm a) = 2 ^ 24 * 3 + (2 ^ 8 * cm + a) := by
      show (3 <<< 24) ||| (cm <<< 8) ||| a = _
      rw [Nat.shiftLeft_eq, Nat.shiftLeft_eq]
      have h1 : 2 ^ 24 * 3 + cm * 2 ^ 8 = 2 ^ 24 * 3 ||| cm * 2 ^ 8 :=
        Nat.mul_add_lt_is_or (by omega) 3
      have h2 : 2 ^ 8 * (2 ^ 16 * 3 + cm) + a = 2 ^ 8 * (2 ^ 16 * 3 + cm) ||| a :=
        Nat.mul_add_lt_is_or (by omega) (2 ^ 16 * 3 + cm)
      calc 3 * 2 ^ 24 ||| cm * 2 ^ 8 ||| a
          = (2 ^ 24 * 3 + cm * 2 ^ 8) ||| a := by rw [Nat.mul_comm 3, h1]
        _ = (2 ^ 8 * (2 ^ 16 * 3 + cm)) ||| a := by ring_nf
        _ = 2 ^ 8 * (2 ^ 16 * 3 + cm) + a := h2.symm
        _ = 2 ^ 24 * 3 + (2 ^ 8 * cm + a) := by ring
    have f1 : (encodeCommand (.Execute cm a) &&& 0xFF000000) >>> 24 = 3 := by
      rw [extract_byte_24, hx, Nat.shiftRight_eq_div_pow]
      have hd : (2 ^ 24 * 3 + (2 ^ 8 * cm + a)) / 2 ^ 24 = 3 := by omega
      rw [hd]
      decide
    have f2 : encodeCommand (.Execute cm a) &&& 0x000000FF = a := by
      rw [(by norm_num : (0x000000FF : Nat) = 2 ^ 8 - 1),
        Nat.and_pow_two_sub_one_eq_mod, hx]
      omega
    have f3 : (encodeCommand (.Execute cm a) &&& 0x0000FF00) >>> 8 = cm := by
      rw [extract_byte_8, hx, Nat.shiftRight_eq_div_pow,
        (by norm_num : (0xFF : Nat) = 2 ^ 8 - 1), Nat.and_pow_two_sub_one_eq_mod]
      omega
    simp [decodeCommand, f1, f2, f3]

/-- Witness for `device_command_decode_encode` at the concrete command
`SetRegister 5 700`. -/
theorem device_command_decode_encode_witness :
    decodeCommand (encodeCommand (.SetRegister 5 700)) = some (.SetRegister 5 700) :=
  device_command_decode_encode (.SetRegister 5 700) (by exact ⟨by norm_num, by norm_num⟩)
